import Mathlib

/-!
# Verification of raptor's threshold-correction precomputation

Shallow embedding of `src/search/precompute_correction.cpp` from the raptor
approximate sequence-search engine, together with proofs about the claims of
its specification.

Modelling conventions:

* C++ `size_t` arithmetic is modelled by `Nat` with an explicit `% 2 ^ 64`
  wherever the source can wrap (the two subtractions deriving the minimizer
  count range).
* The IEEE double arithmetic of the false-positive model is modelled by exact
  fraction arithmetic: values are unreduced `num / den` pairs (`Frac`) whose
  operations are plain integer operations, so every computation reduces in the
  kernel.  The abstraction map `Frac.toRat` relates them to `ℚ`, over which the
  specification-level statements are phrased.
* `std::vector` subscripting is modelled by `List.get?`; an out-of-range
  access (undefined behaviour in the source) surfaces as `none` and is
  propagated as an explicit error.
* The filesystem is a partial map from (directory, filename) pairs to byte
  lists; `cereal`'s binary format for `std::vector<size_t>` is modelled as a
  64-bit little-endian length prefix followed by 64-bit little-endian
  elements, and a decoding failure models the exception `cereal` throws.
-/

/-! ## Exact fraction arithmetic (model of the double-precision values) -/

/-- An exact, possibly unreduced fraction `num / den`.  This is the
computational model of the C++ `double` values: the source's real-number
formulas are carried out exactly, and `Frac.toRat` maps a fraction to the
rational it denotes. -/
structure Frac where
  num : ℤ
  den : ℕ
  deriving DecidableEq

namespace Frac

/-- The rational number denoted by a fraction. -/
def toRat (f : Frac) : ℚ := (f.num : ℚ) / (f.den : ℚ)

/-- Embed a natural number. -/
def ofNat (n : ℕ) : Frac := ⟨n, 1⟩

/-- Exact product. -/
def mul (a b : Frac) : Frac := ⟨a.num * b.num, a.den * b.den⟩

/-- Exact power. -/
def pow (a : Frac) (k : ℕ) : Frac := ⟨a.num ^ k, a.den ^ k⟩

/-- Exact `1 - a` (the source's `inv_fpr = 1.0 - fpr`). -/
def oneSub (a : Frac) : Frac := ⟨(a.den : ℤ) - a.num, a.den⟩

/-- Decidable `a ≤ b` by cross multiplication (valid for positive
denominators). -/
def ble (a b : Frac) : Bool := a.num * (b.den : ℤ) ≤ b.num * (a.den : ℤ)

/-- Decidable `a < b` by cross multiplication (valid for positive
denominators). -/
def blt (a b : Frac) : Bool := a.num * (b.den : ℤ) < b.num * (a.den : ℤ)

theorem toRat_ofNat (n : ℕ) : toRat (ofNat n) = (n : ℚ) := by
  simp [toRat, ofNat]

theorem toRat_mul (a b : Frac) : toRat (mul a b) = toRat a * toRat b := by
  simp only [toRat, mul]
  push_cast
  rw [div_mul_div_comm]

theorem toRat_pow (a : Frac) (k : ℕ) : toRat (pow a k) = toRat a ^ k := by
  simp only [toRat, pow]
  push_cast
  rw [div_pow]

theorem toRat_oneSub (a : Frac) (h : 0 < a.den) :
    toRat (oneSub a) = 1 - toRat a := by
  have hd : ((a.den : ℚ)) ≠ 0 := by positivity
  simp only [toRat, oneSub]
  push_cast
  field_simp

theorem ble_iff (a b : Frac) (ha : 0 < a.den) (hb : 0 < b.den) :
    ble a b = true ↔ toRat a ≤ toRat b := by
  have ha' : (0 : ℚ) < (a.den : ℚ) := by exact_mod_cast ha
  have hb' : (0 : ℚ) < (b.den : ℚ) := by exact_mod_cast hb
  rw [toRat, toRat, div_le_div_iff₀ ha' hb', ble]
  constructor
  · intro h
    have := of_decide_eq_true h
    exact_mod_cast this
  · intro h
    apply decide_eq_true
    exact_mod_cast h

theorem blt_iff (a b : Frac) (ha : 0 < a.den) (hb : 0 < b.den) :
    blt a b = true ↔ toRat a < toRat b := by
  have ha' : (0 : ℚ) < (a.den : ℚ) := by exact_mod_cast ha
  have hb' : (0 : ℚ) < (b.den : ℚ) := by exact_mod_cast hb
  rw [toRat, toRat, div_lt_div_iff₀ ha' hb', blt]
  constructor
  · intro h
    have := of_decide_eq_true h
    exact_mod_cast this
  · intro h
    apply decide_eq_true
    exact_mod_cast h

theorem den_mul (a b : Frac) : (mul a b).den = a.den * b.den := rfl

theorem den_pow (a : Frac) (k : ℕ) : (pow a k).den = a.den ^ k := rfl

theorem den_oneSub (a : Frac) : (oneSub a).den = a.den := rfl

/-- Positivity of the value in terms of the raw fields. -/
theorem toRat_pos (a : Frac) (hn : 0 < a.num) (hd : 0 < a.den) :
    0 < toRat a := by
  have hn' : (0 : ℚ) < (a.num : ℚ) := by exact_mod_cast hn
  have hd' : (0 : ℚ) < (a.den : ℚ)  := by exact_mod_cast hd
  exact div_pos hn' hd'

/-- The value is below one when the numerator is below the denominator. -/
theorem toRat_lt_one (a : Frac) (hd : 0 < a.den) (h : a.num < (a.den : ℤ)) :
    toRat a < 1 := by
  have hd' : (0 : ℚ) < (a.den : ℚ) := by exact_mod_cast hd
  rw [toRat, div_lt_one hd']
  exact_mod_cast h

end Frac

/-! ## Digit strings

Machinery for the decimal/hexadecimal renderings used by the cache-key
derivation (`operator<<` with `std::hex` for the integer fields, default
floating-point formatting for the two rates). -/

/-- Little-endian digits of `n` in base `b`; the explicit fuel (any bound
`≥ n`) makes the recursion structural. -/
def digitsAux (b : ℕ) : ℕ → ℕ → List ℕ
  | 0, _ => []
  | fuel+1, n => if n = 0 then [] else n % b :: digitsAux b fuel (n / b)

/-- Little-endian digits of `n` in base `b` (empty for `n = 0`). -/
def digitsLE (b n : ℕ) : List ℕ := digitsAux b n n

/-- The number denoted by a little-endian digit list. -/
def ofDigitsLE (b : ℕ) (l : List ℕ) : ℕ := l.foldr (fun d acc => d + b * acc) 0

theorem digitsAux_zero (b : ℕ) (fuel : ℕ) : digitsAux b fuel 0 = [] := by
  cases fuel <;> simp [digitsAux]

theorem ofDigitsLE_digitsAux (b : ℕ) (hb : 2 ≤ b) :
    ∀ fuel n, n ≤ fuel → ofDigitsLE b (digitsAux b fuel n) = n := by
  intro fuel
  induction fuel with
  | zero => intro n hn; interval_cases n; simp [digitsAux, ofDigitsLE]
  | succ fuel ih =>
    intro n hn
    by_cases h0 : n = 0
    · subst h0; simp [digitsAux, ofDigitsLE]
    · have hdiv : n / b < n := Nat.div_lt_self (Nat.pos_of_ne_zero h0) (by omega)
      have : ofDigitsLE b (digitsAux b fuel (n / b)) = n / b := ih _ (by omega)
      simp only [digitsAux, if_neg h0, ofDigitsLE, List.foldr_cons]
      have : ofDigitsLE b (digitsAux b fuel (n / b)) = n / b := this
      rw [show (List.foldr (fun d acc => d + b * acc) 0 (digitsAux b fuel (n / b)))
            = ofDigitsLE b (digitsAux b fuel (n / b)) from rfl, this]
      exact Nat.mod_add_div n b

theorem ofDigitsLE_digitsLE (b : ℕ) (hb : 2 ≤ b) (n : ℕ) :
    ofDigitsLE b (digitsLE b n) = n :=
  ofDigitsLE_digitsAux b hb n n le_rfl

theorem digitsLE_inj (b : ℕ) (hb : 2 ≤ b) {m n : ℕ}
    (h : digitsLE b m = digitsLE b n) : m = n := by
  have hm := ofDigitsLE_digitsLE b hb m
  have hn := ofDigitsLE_digitsLE b hb n
  rw [h] at hm
  omega

theorem digitsAux_lt (b : ℕ) (hb : 0 < b) :
    ∀ fuel n d, d ∈ digitsAux b fuel n → d < b := by
  intro fuel
  induction fuel with
  | zero => intro n d hd; simp [digitsAux] at hd
  | succ fuel ih =>
    intro n d hd
    by_cases h0 : n = 0
    · subst h0; simp [digitsAux] at hd
    · simp only [digitsAux, if_neg h0, List.mem_cons] at hd
      rcases hd with h | h
      · subst h; exact Nat.mod_lt _ hb
      · exact ih _ _ h

theorem digitsAux_ne_nil (b : ℕ) (fuel n : ℕ) (hn : 0 < n) (hfuel : n ≤ fuel) :
    digitsAux b fuel n ≠ [] := by
  cases fuel with
  | zero => omega
  | succ fuel =>
    have h0 : n ≠ 0 := by omega
    simp [digitsAux, h0]

theorem digitsAux_getLast?_ne_zero (b : ℕ) (hb : 2 ≤ b) :
    ∀ fuel n, n ≤ fuel → 0 < n → (digitsAux b fuel n).getLast? ≠ some 0 := by
  intro fuel
  induction fuel with
  | zero => intro n h1 h2; omega
  | succ fuel ih =>
    intro n hn hpos
    have h0 : n ≠ 0 := by omega
    rw [digitsAux, if_neg h0]
    by_cases hq : n / b = 0
    · have hlt : n < b := by
        rcases Nat.lt_or_ge n b with h | h
        · exact h
        · exact absurd hq (by
            have : 0 < n / b := Nat.div_pos h (by omega)
            omega)
      rw [hq, digitsAux_zero]
      simp only [List.getLast?_singleton]
      have : n % b = n := Nat.mod_eq_of_lt hlt
      rw [this]
      simp [h0]
    · have hqpos : 0 < n / b := Nat.pos_of_ne_zero hq
      have hdiv : n / b < n := Nat.div_lt_self hpos (by omega)
      have hle : n / b ≤ fuel := by omega
      obtain ⟨d, t, ht⟩ := List.exists_cons_of_ne_nil (digitsAux_ne_nil b fuel (n / b) hqpos hle)
      rw [ht, List.getLast?_cons_cons, ← ht]
      exact ih _ hle hqpos

/-- The character for one digit value (decimal `0`–`9`, then lowercase
`a`–`f`), as produced by `operator<<` on integers. -/
def digitChar (d : ℕ) : Char := if d < 10 then Char.ofNat (48 + d) else Char.ofNat (87 + d)

theorem digitChar_inj : ∀ d < 16, ∀ e < 16, digitChar d = digitChar e → d = e := by decide

theorem digitChar_ne_sep : ∀ d < 16, digitChar d ≠ '_' ∧ digitChar d ≠ '.' := by decide

theorem digitChar_ne_zero_char : ∀ d < 16, 0 < d → digitChar d ≠ '0' := by decide

/-- Most-significant-digit-first character rendering of `n` in base `b`
(empty for `n = 0`). -/
def digitString (b n : ℕ) : List Char := ((digitsLE b n).reverse).map digitChar

theorem map_digitChar_inj : ∀ l l' : List ℕ, (∀ x ∈ l, x < 16) → (∀ x ∈ l', x < 16) →
    l.map digitChar = l'.map digitChar → l = l' := by
  intro l
  induction l with
  | nil => intro l' _ _ h; cases l' <;> simp_all
  | cons x t ih =>
    intro l' hl hl' h
    cases l' with
    | nil => simp at h
    | cons y t' =>
      simp only [List.map_cons, List.cons.injEq] at h
      have hx : x = y := digitChar_inj x (hl x (by simp)) y (hl' y (by simp)) h.1
      have ht : t = t' := ih t' (fun z hz => hl z (by simp [hz])) (fun z hz => hl' z (by simp [hz])) h.2
      rw [hx, ht]

theorem digitString_inj (b : ℕ) (hb : 2 ≤ b) (hb16 : b ≤ 16) {m n : ℕ}
    (h : digitString b m = digitString b n) : m = n := by
  have hm : ∀ x ∈ (digitsLE b m).reverse, x < 16 := by
    intro x hx
    rw [List.mem_reverse] at hx
    exact lt_of_lt_of_le (digitsAux_lt b (by omega) m m x hx) hb16
  have hn : ∀ x ∈ (digitsLE b n).reverse, x < 16 := by
    intro x hx
    rw [List.mem_reverse] at hx
    exact lt_of_lt_of_le (digitsAux_lt b (by omega) n n x hx) hb16
  have := map_digitChar_inj _ _ hm hn h
  exact digitsLE_inj b hb (List.reverse_injective this)

theorem digitString_sep_free (b : ℕ) (hb : 0 < b) (hb16 : b ≤ 16) (n : ℕ) :
    ∀ c ∈ digitString b n, c ≠ '_' ∧ c ≠ '.' := by
  intro c hc
  simp only [digitString, List.mem_map, List.mem_reverse] at hc
  obtain ⟨d, hd, rfl⟩ := hc
  exact digitChar_ne_sep d (lt_of_lt_of_le (digitsAux_lt b hb n n d hd) hb16)

theorem digitString_head?_ne_zero (b : ℕ) (hb : 2 ≤ b) (hb16 : b ≤ 16) (n : ℕ) (hn : 0 < n) :
    (digitString b n).head? ≠ some '0' := by
  unfold digitString
  rw [List.head?_map, List.head?_reverse]
  intro h
  obtain ⟨d, hd, hdc⟩ : ∃ d, (digitsLE b n).getLast? = some d ∧ digitChar d = '0' := by
    cases hlast : (digitsLE b n).getLast? with
    | none => rw [hlast] at h; simp at h
    | some d => rw [hlast] at h; simp at h; exact ⟨d, rfl, h⟩
  have hne := digitsAux_getLast?_ne_zero b hb n n le_rfl hn
  have hdpos : 0 < d := by
    rcases Nat.eq_zero_or_pos d with h0 | h0
    · subst h0; exact absurd hd hne
    · exact h0
  have hdlt : d < 16 := by
    have hd' : d ∈ (digitsLE b n).getLast? := Option.mem_def.mpr hd
    obtain ⟨hne, heq⟩ := List.mem_getLast?_eq_getLast hd'
    have hmem : d ∈ digitsLE b n := heq ▸ List.getLast_mem hne
    exact lt_of_lt_of_le (digitsAux_lt b (by omega) n n d hmem) hb16
  exact digitChar_ne_zero_char d hdlt hdpos hdc

/-! ## Default floating-point rendering

`operator<<` on a `double` with default flags prints with six significant
digits, drops trailing zeros, and switches to scientific notation once the
decimal exponent drops below `-4`.  The renderer below models that format for
values in `(0, 1)` (the only values the source prints: `p_max` and `fpr`),
with ties rounded up. -/

/-- Least `e ≤ fuel` with `d ≤ n * 10 ^ e` (`0` if the fuel runs out). -/
def expAux (d : ℕ) : ℕ → ℕ → ℕ
  | 0, _ => 0
  | fuel+1, n => if d ≤ n then 0 else expAux d fuel (n * 10) + 1

/-- Decimal exponent of `n / d ∈ (0, 1)`: the least `e` with
`1 ≤ (n / d) * 10 ^ e`, so that the value lies in `[10 ^ (-e), 10 ^ (-e + 1))`. -/
def eOf (n d : ℕ) : ℕ := expAux d d n

/-- The six-digit significand: `n / d * 10 ^ (e + 5)` rounded to the nearest
integer (ties up). -/
def roundSig (n d e : ℕ) : ℕ := (2 * n * 10 ^ (e + 5) + d) / (2 * d)

/-- Split `m` as `u * 10 ^ t` with `10 ∤ u` (trailing-zero removal). -/
def splitTens : ℕ → ℕ → ℕ × ℕ
  | 0, m => (0, m)
  | fuel+1, m =>
    if m ≠ 0 ∧ m % 10 = 0 then
      let p := splitTens fuel (m / 10)
      (p.1 + 1, p.2)
    else (0, m)

/-- The digits after `0.` in fixed notation: `e - 1` zeros, then the
significand with its trailing zeros removed. -/
def fixedTail (e m : ℕ) : List Char :=
  List.replicate (e - 1) '0' ++ digitString 10 (splitTens m m).2

/-- Fixed-notation rendering `0.⟨e-1 zeros⟩⟨significand without trailing
zeros⟩` of a value in `[10 ^ (-e), 10 ^ (-e+1))` with significand `m`. -/
def fixedChars (e m : ℕ) : List Char := '0' :: '.' :: fixedTail e m

/-- Scientific-notation rendering `d.ddddde-0e` of a value in
`[10 ^ (-e), 10 ^ (-e+1))` with significand `m`. -/
def sciChars (e m : ℕ) : List Char :=
  match digitString 10 (splitTens m m).2 with
  | [] => []
  | c :: rest =>
    c :: (if rest.isEmpty then [] else '.' :: rest)
      ++ 'e' :: '-' :: (if e < 10 then '0' :: digitString 10 e else digitString 10 e)

/-- Default `operator<<` rendering of a positive double below one (empty list
for values outside `(0, 1)`, which the source never prints).  The second
branch renormalizes when rounding carries the significand to `10 ^ 6`. -/
def renderFrac (f : Frac) : List Char :=
  if 0 < f.num ∧ f.num < (f.den : ℤ) then
    if roundSig f.num.toNat f.den (eOf f.num.toNat f.den) < 10 ^ 6 then
      if eOf f.num.toNat f.den ≤ 4 then
        fixedChars (eOf f.num.toNat f.den) (roundSig f.num.toNat f.den (eOf f.num.toNat f.den))
      else
        sciChars (eOf f.num.toNat f.den) (roundSig f.num.toNat f.den (eOf f.num.toNat f.den))
    else
      if eOf f.num.toNat f.den - 1 ≤ 4 then fixedChars (eOf f.num.toNat f.den - 1) (10 ^ 5)
      else sciChars (eOf f.num.toNat f.den - 1) (10 ^ 5)
  else []

/-- One `result.find("0."); result.replace(it, 2, "")` pass: remove the
leftmost occurrence of the two-character substring `0.` (no-op when absent). -/
def strip0 : List Char → List Char
  | [] => []
  | [c] => [c]
  | c1 :: c2 :: rest => if c1 = '0' ∧ c2 = '.' then rest else c1 :: strip0 (c2 :: rest)

/-! ## Search arguments and the cache key -/

/-- The slice of `raptor::search_arguments` consumed by
`precompute_correction`.  `shape_ulong` models `shape.to_ulong()` and
`shape_size` models `shape.size()` (the k-mer size); `p_max` and `fpr` are the
double-valued rates; `index_parent` models `index_file.parent_path()`. -/
structure search_arguments where
  pattern_size : ℕ
  window_size : ℕ
  shape_ulong : ℕ
  shape_size : ℕ
  p_max : Frac
  fpr : Frac
  treshold_was_set : Bool
  cache_thresholds : Bool
  index_parent : List Char

/-- `std::hex` rendering of an unsigned integer (lowercase, no prefix, `"0"`
for zero). -/
def hexChars (n : ℕ) : List Char := if n = 0 then ['0'] else digitString 16 n

/-- Embedding of `raptor::correction_filename`: stream the five parameters
(integers in hex, rates in default floating-point format) separated by `_`,
append `.bin`, then delete the first two occurrences of `"0."`. -/
def correction_filename (arguments : search_arguments) : List Char :=
  strip0 (strip0 ("correction_".toList
    ++ hexChars arguments.pattern_size
    ++ '_' :: hexChars arguments.window_size
    ++ '_' :: hexChars arguments.shape_ulong
    ++ '_' :: renderFrac arguments.p_max
    ++ '_' :: renderFrac arguments.fpr
    ++ ".bin".toList))

/-! ## The false-positive model and the correction scan -/

/-- Modelled from the spec: `raptor::detail::pascal_row` (the
`BinomialRowGenerator` of §4.1) is declared in a header outside the read
sources; per the spec it returns the ordered sequence of the `n + 1` binomial
coefficients `C(n,0), …, C(n,n)`. -/
def pascal_row (n : ℕ) : List ℕ := (List.range (n + 1)).map n.choose

/-- The source's `binom` lambda:
`binom_coeff[number_of_fp] * pow(fpr, number_of_fp) * pow(inv_fpr, n - number_of_fp)`.
A subscript past the end of `binom_coeff` is undefined behaviour in the
source and surfaces as `none` here. -/
def binom (binom_coeff : List ℕ) (fpr : Frac) (number_of_minimizers number_of_fp : ℕ) :
    Option Frac :=
  (binom_coeff.get? number_of_fp).map fun c =>
    Frac.mul (Frac.mul (Frac.ofNat c) (Frac.pow fpr number_of_fp))
      (Frac.pow (Frac.oneSub fpr) (number_of_minimizers - number_of_fp))

/-- The inner `while (binom(…) >= p_max) ++number_of_fp;` loop, started at
`k`: returns the first count whose modelled probability drops below `p_max`,
or `none` on an out-of-range subscript.  Fuel `n + 2` always suffices, since
the subscript fails at the latest at index `n + 1`. -/
def scanAux (binom_coeff : List ℕ) (fpr p_max : Frac) (n : ℕ) : ℕ → ℕ → Option ℕ
  | 0, _ => none
  | fuel+1, k =>
    match binom binom_coeff fpr n k with
    | none => none
    | some t => if Frac.ble p_max t then scanAux binom_coeff fpr p_max n fuel (k + 1) else some k

/-- One iteration of the outer loop: the table entry `number_of_fp - 1` for
minimizer count `n`. -/
def correctionEntry (fpr p_max : Frac) (n : ℕ) : Option ℕ :=
  (scanAux (pascal_row n) fpr p_max n (n + 2) 1).map (· - 1)

/-- Option-valued map; `none` as soon as one entry fails. -/
def mapOpt (f : α → Option β) : List α → Option (List β)
  | [] => some []
  | a :: l =>
    match f a with
    | none => none
    | some b => (mapOpt f l).map (b :: ·)

/-- `shape.size()`. -/
def kmer_size (arguments : search_arguments) : ℕ := arguments.shape_size

/-- `window_size - kmer_size + 1` in `size_t` arithmetic. -/
def kmers_per_window (arguments : search_arguments) : ℕ :=
  (arguments.window_size + 2 ^ 64 - kmer_size arguments + 1) % 2 ^ 64

/-- `pattern_size - kmer_size + 1` in `size_t` arithmetic. -/
def kmers_per_pattern (arguments : search_arguments) : ℕ :=
  (arguments.pattern_size + 2 ^ 64 - kmer_size arguments + 1) % 2 ^ 64

/-- `kmers_per_pattern / kmers_per_window` (truncating division). -/
def minimal_number_of_minimizers (arguments : search_arguments) : ℕ :=
  kmers_per_pattern arguments / kmers_per_window arguments

/-- `pattern_size - window_size + 1` in `size_t` arithmetic. -/
def maximal_number_of_minimizers (arguments : search_arguments) : ℕ :=
  (arguments.pattern_size + 2 ^ 64 - arguments.window_size + 1) % 2 ^ 64

/-- The outer `for` loop of `precompute_correction`: one entry per minimizer
count from `minimal_number_of_minimizers` to `maximal_number_of_minimizers`
inclusive; `none` if any inner scan runs off the end of its Pascal row. -/
def buildCorrection (arguments : search_arguments) : Option (List ℕ) :=
  mapOpt (correctionEntry arguments.fpr arguments.p_max)
    (List.range' (minimal_number_of_minimizers arguments)
      (maximal_number_of_minimizers arguments + 1 - minimal_number_of_minimizers arguments))

/-! ## The cache layer -/

/-- The filesystem: a partial map from (directory, filename) to file bytes. -/
abbrev FS := (List Char × List Char) → Option (List ℕ)

/-- Little-endian bytes of `n`, `w` bytes wide (values wrap at `2 ^ (8 w)`). -/
def toLE : ℕ → ℕ → List ℕ
  | 0, _ => []
  | w+1, n => n % 256 :: toLE w (n / 256)

/-- The number denoted by a little-endian byte list. -/
def fromLE (l : List ℕ) : ℕ := l.foldr (fun b acc => b + 256 * acc) 0

/-- Modelled from the spec (§6): the cache artifact is a "length-prefixed …
encoding of an ordered sequence of unsigned integers" — `cereal`'s binary
format for `std::vector<size_t>`: a 64-bit little-endian element count
followed by the 64-bit little-endian elements. -/
def encodeVec (v : List ℕ) : List ℕ := toLE 8 v.length ++ (v.map (toLE 8)).flatten

/-- Read one 64-bit little-endian word; `none` when fewer than 8 bytes
remain (the condition under which `cereal` throws). -/
def readLE8 (bs : List ℕ) : Option (ℕ × List ℕ) :=
  if 8 ≤ bs.length then some (fromLE (bs.take 8), bs.drop 8) else none

/-- Read `k` 64-bit little-endian words. -/
def readElems : ℕ → List ℕ → Option (List ℕ)
  | 0, _ => some []
  | k+1, bs => (readLE8 bs).bind fun p => (readElems k p.2).map (p.1 :: ·)

/-- Decode a stored artifact: element count, then that many elements;
trailing bytes are not consumed.  `none` models the `cereal::Exception` on a
truncated or malformed stream. -/
def decodeVec (bs : List ℕ) : Option (List ℕ) :=
  (readLE8 bs).bind fun p => readElems p.1 p.2

/-- The observable failures of `precompute_correction`: the exception
`cereal` throws on a malformed artifact, and the undefined behaviour of a
Pascal-row subscript past the end. -/
inductive run_error where
  | decode_failure
  | out_of_range
  deriving DecidableEq

/-- `index_file.parent_path() / correction_filename(arguments)`. -/
def correction_path (arguments : search_arguments) : List Char × List Char :=
  (arguments.index_parent, correction_filename arguments)

/-- Embedding of `raptor::write_correction`: no-op unless `cache_thresholds`
is set, else store the serialized table at the derived path. -/
def write_correction (vec : List ℕ) (arguments : search_arguments) (fs : FS) : FS :=
  if arguments.cache_thresholds = false then fs
  else fun p => if p = correction_path arguments then some (encodeVec vec) else fs p

/-- Embedding of `raptor::read_correction`: `ok none` when no artifact exists
(the source returns `false`), `ok (some v)` for a decodable artifact (the
source returns `true` with `vec` filled), and the `cereal` exception on a
malformed artifact. -/
def read_correction (arguments : search_arguments) (fs : FS) :
    Except run_error (Option (List ℕ)) :=
  match fs (correction_path arguments) with
  | none => .ok none
  | some bytes =>
    match decodeVec bytes with
    | none => .error .decode_failure
    | some vec => .ok (some vec)

/-- Embedding of `raptor::precompute_correction` (release semantics: the two
`assert`s are compiled out).  Returns the resulting table together with the
filesystem after the store step. -/
def precompute_correction (arguments : search_arguments) (fs : FS) :
    Except run_error (List ℕ × FS) :=
  if arguments.treshold_was_set then .ok ([], fs)
  else
    match read_correction arguments fs with
    | .error e => .error e
    | .ok (some correction) => .ok (correction, fs)
    | .ok none =>
      match buildCorrection arguments with
      | none => .error .out_of_range
      | some correction => .ok (correction, write_correction correction arguments fs)

/-! ## Specification-side definitions -/

/-- The specification's false-positive model (§4.2): the binomial probability
mass `C(n,k) · fpr^k · (1-fpr)^(n-k)` of exactly `k` false positives among
`n` trials, phrased over `ℚ`. -/
def binomPMF (n k : ℕ) (p : ℚ) : ℚ := (n.choose k : ℚ) * p ^ k * (1 - p) ^ (n - k)

/-- Decidable sufficient condition for the inner scan to stay inside its
Pascal row: every minimizer count `n` in the table's domain admits some
`1 ≤ j ≤ n` whose modelled probability is below `p_max`. -/
def scanGuard (arguments : search_arguments) : Bool :=
  (List.range' (minimal_number_of_minimizers arguments)
    (maximal_number_of_minimizers arguments + 1 - minimal_number_of_minimizers arguments)).all
    fun n => (List.range' 1 n).any fun j =>
      match binom (pascal_row n) arguments.fpr n j with
      | none => false
      | some t => Frac.blt t arguments.p_max

/-! ## Facts about the scan and the build loop -/

theorem pascal_row_get? (n k : ℕ) :
    (pascal_row n).get? k = if k < n + 1 then some (n.choose k) else none := by
  by_cases h : k < n + 1
  · simp [pascal_row, List.get?_eq_getElem?, List.getElem?_map, List.getElem?_range, h]
  · simp only [pascal_row, List.get?_eq_getElem?, if_neg h]
    rw [List.getElem?_eq_none]
    simp only [List.length_map, List.length_range]
    omega

/-- The value of the `binom` lambda at an in-range subscript. -/
def binomTermFrac (fpr : Frac) (n k : ℕ) : Frac :=
  Frac.mul (Frac.mul (Frac.ofNat (n.choose k)) (Frac.pow fpr k))
    (Frac.pow (Frac.oneSub fpr) (n - k))

theorem binom_eq_some (n k : ℕ) (fpr : Frac) (hk : k ≤ n) :
    binom (pascal_row n) fpr n k = some (binomTermFrac fpr n k) := by
  unfold binom
  rw [pascal_row_get?, if_pos (Nat.lt_succ_of_le hk)]
  rfl

theorem binom_eq_none (n k : ℕ) (fpr : Frac) (hk : n < k) :
    binom (pascal_row n) fpr n k = none := by
  have h : ¬ (k < n + 1) := by omega
  unfold binom
  rw [pascal_row_get?, if_neg h]
  rfl

theorem binomTermFrac_den (fpr : Frac) (n k : ℕ) :
    (binomTermFrac fpr n k).den = fpr.den ^ k * fpr.den ^ (n - k) := by
  simp [binomTermFrac, Frac.den_mul, Frac.den_pow, Frac.den_oneSub, Frac.ofNat]

theorem binomTermFrac_den_pos (fpr : Frac) (n k : ℕ) (h : 0 < fpr.den) :
    0 < (binomTermFrac fpr n k).den := by
  rw [binomTermFrac_den]
  positivity

theorem binomTermFrac_toRat (fpr : Frac) (n k : ℕ) (h : 0 < fpr.den) :
    Frac.toRat (binomTermFrac fpr n k) = binomPMF n k (Frac.toRat fpr) := by
  rw [binomTermFrac, Frac.toRat_mul, Frac.toRat_mul, Frac.toRat_ofNat, Frac.toRat_pow,
    Frac.toRat_pow, Frac.toRat_oneSub _ h, binomPMF]

/-- Everything the inner loop guarantees when it returns `some j`: the scan
reached `j` from `k`, the probability at `j` is the first one below `p_max`,
and every count strictly between passed the `≥ p_max` test. -/
theorem scanAux_eq_some (row : List ℕ) (fpr p_max : Frac) (n : ℕ) :
    ∀ fuel k j, scanAux row fpr p_max n fuel k = some j →
      k ≤ j ∧ (∃ t, binom row fpr n j = some t ∧ Frac.ble p_max t = false)
        ∧ ∀ i, k ≤ i → i < j → ∃ t, binom row fpr n i = some t ∧ Frac.ble p_max t = true := by
  intro fuel
  induction fuel with
  | zero => intro k j h; simp [scanAux] at h
  | succ fuel ih =>
    intro k j h
    rw [scanAux] at h
    cases hb : binom row fpr n k with
    | none =>
      rw [hb] at h
      replace h : (none : Option ℕ) = some j := h
      simp at h
    | some t =>
      rw [hb] at h
      replace h : (if Frac.ble p_max t = true then scanAux row fpr p_max n fuel (k + 1)
          else some k) = some j := h
      by_cases hble : Frac.ble p_max t = true
      · rw [if_pos hble] at h
        obtain ⟨hkj, hj, hall⟩ := ih (k+1) j h
        refine ⟨by omega, hj, ?_⟩
        intro i hki hij
        by_cases hik : i = k
        · subst hik; exact ⟨t, hb, hble⟩
        · exact hall i (by omega) hij
      · rw [if_neg hble] at h
        simp only [Option.some.injEq] at h
        subst h
        exact ⟨le_rfl, ⟨t, hb, by simpa using hble⟩, fun i h1 h2 => by omega⟩

/-- The inner loop succeeds whenever some count in `[k, j]` has probability
below `p_max` and all counts before it are in range. -/
theorem scanAux_isSome (row : List ℕ) (fpr p_max : Frac) (n : ℕ) :
    ∀ fuel k j, j - k < fuel → k ≤ j →
      (∃ t, binom row fpr n j = some t ∧ Frac.ble p_max t = false) →
      (∀ i, k ≤ i → i < j → (binom row fpr n i).isSome) →
      (scanAux row fpr p_max n fuel k).isSome := by
  intro fuel
  induction fuel with
  | zero => intro k j h; omega
  | succ fuel ih =>
    intro k j hfuel hkj hj hmid
    rw [scanAux]
    by_cases hjk : j = k
    · subst hjk
      obtain ⟨t, ht, hble⟩ := hj
      rw [ht]
      show (if Frac.ble p_max t = true then scanAux row fpr p_max n fuel (j + 1)
          else some j).isSome
      rw [hble]
      simp
    · have hklt : k < j := by omega
      have hsome : (binom row fpr n k).isSome := hmid k le_rfl hklt
      obtain ⟨t, ht⟩ := Option.isSome_iff_exists.mp hsome
      rw [ht]
      show (if Frac.ble p_max t = true then scanAux row fpr p_max n fuel (k + 1)
          else some k).isSome
      by_cases hble : Frac.ble p_max t = true
      · rw [if_pos hble]
        exact ih (k+1) j (by omega) (by omega) hj (fun i h1 h2 => hmid i (by omega) h2)
      · rw [if_neg hble]
        simp

theorem mapOpt_length {α β : Type} {f : α → Option β} :
    ∀ {l : List α} {t : List β}, mapOpt f l = some t → t.length = l.length := by
  intro l
  induction l with
  | nil => intro t h; simp [mapOpt] at h; simp [← h]
  | cons a l ih =>
    intro t h
    rw [mapOpt] at h
    cases hf : f a with
    | none => rw [hf] at h; simp at h
    | some b =>
      rw [hf] at h
      cases hm : mapOpt f l with
      | none => rw [hm] at h; simp at h
      | some t' =>
        rw [hm] at h
        simp only [Option.map_some', Option.some.injEq] at h
        subst h
        simp [ih hm]

theorem mapOpt_get? {α β : Type} {f : α → Option β} :
    ∀ {l : List α} {t : List β}, mapOpt f l = some t →
      ∀ i x, l.get? i = some x → t.get? i = f x := by
  intro l
  induction l with
  | nil => intro t h i x hx; simp at hx
  | cons a l ih =>
    intro t h i x hx
    rw [mapOpt] at h
    cases hf : f a with
    | none => rw [hf] at h; simp at h
    | some b =>
      rw [hf] at h
      cases hm : mapOpt f l with
      | none => rw [hm] at h; simp at h
      | some t' =>
        rw [hm] at h
        simp only [Option.map_some', Option.some.injEq] at h
        subst h
        cases i with
        | zero =>
          simp at hx
          subst hx
          simp [hf]
        | succ i =>
          simp only [List.get?_cons_succ] at hx ⊢
          exact ih hm i x hx

theorem mapOpt_isSome {α β : Type} {f : α → Option β} :
    ∀ {l : List α}, (∀ x ∈ l, (f x).isSome) → (mapOpt f l).isSome := by
  intro l
  induction l with
  | nil => intro _; simp [mapOpt]
  | cons a l ih =>
    intro h
    rw [mapOpt]
    have ha : (f a).isSome := h a (by simp)
    obtain ⟨b, hb⟩ := Option.isSome_iff_exists.mp ha
    rw [hb]
    have hl : (mapOpt f l).isSome := ih (fun x hx => h x (by simp [hx]))
    obtain ⟨t, ht⟩ := Option.isSome_iff_exists.mp hl
    rw [ht]
    simp

theorem Frac.blt_ble (a b : Frac) (h : Frac.blt a b = true) : Frac.ble b a = false := by
  unfold Frac.blt at h
  unfold Frac.ble
  have hlt := of_decide_eq_true h
  simp only [decide_eq_false_iff_not]
  omega

/-! ## The minimizer-count range -/

theorem kmers_per_window_eq (a : search_arguments) (h0 : 1 ≤ kmer_size a)
    (h1 : kmer_size a ≤ a.window_size) (h2 : a.window_size < 2 ^ 64) :
    kmers_per_window a = a.window_size - kmer_size a + 1 := by
  unfold kmers_per_window
  have h : ∀ w k : ℕ, 1 ≤ k → k ≤ w → w < 2 ^ 64 →
      (w + 2 ^ 64 - k + 1) % 2 ^ 64 = w - k + 1 := by
    intro w k hk hkw hw
    have e1 : w + 2 ^ 64 - k + 1 = (w - k + 1) + 2 ^ 64 := by omega
    rw [e1, Nat.add_mod_right]
    exact Nat.mod_eq_of_lt (by omega)
  exact h _ _ h0 h1 h2

theorem kmers_per_pattern_eq (a : search_arguments) (h0 : 1 ≤ kmer_size a)
    (h1 : kmer_size a ≤ a.pattern_size) (h2 : a.pattern_size < 2 ^ 64) :
    kmers_per_pattern a = a.pattern_size - kmer_size a + 1 := by
  unfold kmers_per_pattern
  have h : ∀ p k : ℕ, 1 ≤ k → k ≤ p → p < 2 ^ 64 →
      (p + 2 ^ 64 - k + 1) % 2 ^ 64 = p - k + 1 := by
    intro p k hk hkp hp
    have e1 : p + 2 ^ 64 - k + 1 = (p - k + 1) + 2 ^ 64 := by omega
    rw [e1, Nat.add_mod_right]
    exact Nat.mod_eq_of_lt (by omega)
  exact h _ _ h0 h1 h2

theorem maximal_eq (a : search_arguments)
    (h1 : a.window_size ≤ a.pattern_size) (h2 : a.pattern_size < 2 ^ 64)
    (h3 : 1 ≤ a.window_size) :
    maximal_number_of_minimizers a = a.pattern_size - a.window_size + 1 := by
  unfold maximal_number_of_minimizers
  have h : ∀ p w : ℕ, w ≤ p → p < 2 ^ 64 → 1 ≤ w →
      (p + 2 ^ 64 - w + 1) % 2 ^ 64 = p - w + 1 := by
    intro p w hwp hp hw
    have e1 : p + 2 ^ 64 - w + 1 = (p - w + 1) + 2 ^ 64 := by omega
    rw [e1, Nat.add_mod_right]
    exact Nat.mod_eq_of_lt (by omega)
  exact h _ _ h1 h2 h3

/-- For every degenerate-free configuration (`kmer < window ≤ pattern`), the
derived minimizer-count range is non-empty. -/
theorem minimal_le_maximal (a : search_arguments)
    (hk : 1 ≤ kmer_size a) (hkw : kmer_size a < a.window_size)
    (hwp : a.window_size ≤ a.pattern_size) (hp : a.pattern_size < 2 ^ 64) :
    minimal_number_of_minimizers a ≤ maximal_number_of_minimizers a := by
  have hw := kmers_per_window_eq a hk (by omega) (by omega)
  have hpp := kmers_per_pattern_eq a hk (by omega) hp
  have hm := maximal_eq a hwp hp (by omega)
  unfold minimal_number_of_minimizers
  rw [hw, hpp, hm]
  have key : ∀ b M : ℕ, 2 ≤ b → 1 ≤ M → (M + b - 1) / b ≤ M := by
    intro b M hb hM
    apply Nat.div_le_of_le_mul
    obtain ⟨b', rfl⟩ : ∃ b', b = b' + 1 := ⟨b - 1, by omega⟩
    have h1 : b' ≤ b' * M := Nat.le_mul_of_pos_right _ (by omega)
    have h2 : (b' + 1) * M = b' * M + M := by rw [Nat.succ_mul]
    omega
  have hkey := key (a.window_size - kmer_size a + 1) (a.pattern_size - a.window_size + 1)
    (by omega) (by omega)
  have hA : a.pattern_size - kmer_size a + 1
      = (a.pattern_size - a.window_size + 1) + (a.window_size - kmer_size a + 1) - 1 := by omega
  rw [hA]
  exact hkey

/-! ## The table produced by the build loop -/

theorem buildCorrection_length (a : search_arguments) (t : List ℕ)
    (h : buildCorrection a = some t) :
    t.length = maximal_number_of_minimizers a + 1 - minimal_number_of_minimizers a := by
  have := mapOpt_length h
  simpa using this

theorem buildCorrection_get? (a : search_arguments) (t : List ℕ)
    (h : buildCorrection a = some t) (n : ℕ)
    (h1 : minimal_number_of_minimizers a ≤ n) (h2 : n ≤ maximal_number_of_minimizers a) :
    t.get? (n - minimal_number_of_minimizers a) = correctionEntry a.fpr a.p_max n := by
  have hlt : n - minimal_number_of_minimizers a
      < maximal_number_of_minimizers a + 1 - minimal_number_of_minimizers a := by omega
  have hr : (List.range' (minimal_number_of_minimizers a)
      (maximal_number_of_minimizers a + 1 - minimal_number_of_minimizers a)).get?
        (n - minimal_number_of_minimizers a) = some n := by
    rw [List.get?_eq_getElem?, List.getElem?_range' _ _ hlt]
    congr 1
    omega
  exact mapOpt_get? h _ n hr

/-- What a produced table entry guarantees: the probability at `c + 1` is the
first one below `p_max`, and (when `c > 0`) the one at `c` is still at or
above it. -/
theorem correctionEntry_bounds (fpr p_max : Frac) (n c : ℕ)
    (hfd : 0 < fpr.den) (hpd : 0 < p_max.den)
    (h : correctionEntry fpr p_max n = some c) :
    c + 1 ≤ n ∧ binomPMF n (c + 1) (Frac.toRat fpr) < Frac.toRat p_max
      ∧ (0 < c → Frac.toRat p_max ≤ binomPMF n c (Frac.toRat fpr)) := by
  unfold correctionEntry at h
  cases hs : scanAux (pascal_row n) fpr p_max n (n + 2) 1 with
  | none => rw [hs] at h; simp at h
  | some j =>
    rw [hs] at h
    simp only [Option.map_some', Option.some.injEq] at h
    obtain ⟨h1j, ⟨t, htj, hble⟩, hall⟩ := scanAux_eq_some _ _ _ _ _ _ _ hs
    have hjn : j ≤ n := by
      by_contra hgt
      rw [binom_eq_none n j fpr (by omega)] at htj
      simp at htj
    have htj' : binomTermFrac fpr n j = t := by
      rw [binom_eq_some n j fpr hjn] at htj
      simpa using htj
    subst htj'
    have hnot : ¬ (Frac.toRat p_max ≤ Frac.toRat (binomTermFrac fpr n j)) := by
      rw [← Frac.ble_iff _ _ hpd (binomTermFrac_den_pos fpr n j hfd)]
      simp [hble]
    have hlt : Frac.toRat (binomTermFrac fpr n j) < Frac.toRat p_max := not_le.mp hnot
    rw [binomTermFrac_toRat fpr n j hfd] at hlt
    have hcj : c + 1 = j := by omega
    refine ⟨by omega, by rw [hcj]; exact hlt, ?_⟩
    intro hc
    have hmem := hall (j - 1) (by omega) (by omega)
    obtain ⟨t', ht', hble'⟩ := hmem
    have hj1n : j - 1 ≤ n := by omega
    have ht'' : binomTermFrac fpr n (j - 1) = t' := by
      rw [binom_eq_some n (j - 1) fpr hj1n] at ht'
      simpa using ht'
    subst ht''
    have hle : Frac.toRat p_max ≤ Frac.toRat (binomTermFrac fpr n (j - 1)) :=
      (Frac.ble_iff _ _ hpd (binomTermFrac_den_pos fpr n (j - 1) hfd)).mp hble'
    rw [binomTermFrac_toRat fpr n (j - 1) hfd] at hle
    have hcj' : c = j - 1 := by omega
    rw [hcj']
    exact hle

/-- The scan for count `n` succeeds as soon as one in-range count `1 ≤ j ≤ n`
has probability strictly below `p_max`. -/
theorem correctionEntry_isSome (fpr p_max : Frac) (n j : ℕ)
    (h1 : 1 ≤ j) (h2 : j ≤ n)
    (hj : Frac.blt (binomTermFrac fpr n j) p_max = true) :
    (correctionEntry fpr p_max n).isSome := by
  unfold correctionEntry
  rw [Option.isSome_map']
  apply scanAux_isSome _ _ _ _ (n + 2) 1 j (by omega) h1
  · exact ⟨binomTermFrac fpr n j, binom_eq_some n j fpr h2, Frac.blt_ble _ _ hj⟩
  · intro i hi1 hij
    rw [binom_eq_some n i fpr (by omega)]
    simp

/-- The whole build succeeds under the decidable guard. -/
theorem buildCorrection_isSome_of_guard (a : search_arguments) (hg : scanGuard a = true) :
    (buildCorrection a).isSome := by
  unfold buildCorrection
  apply mapOpt_isSome
  intro n hn
  unfold scanGuard at hg
  rw [List.all_eq_true] at hg
  have hgn := hg n hn
  rw [List.any_eq_true] at hgn
  obtain ⟨j, hjmem, hj⟩ := hgn
  rw [List.mem_range'] at hjmem
  obtain ⟨i, hi, rfl⟩ := hjmem
  rw [binom_eq_some n _ a.fpr (by omega)] at hj
  replace hj : Frac.blt (binomTermFrac a.fpr n (1 + 1 * i)) a.p_max = true := hj
  exact correctionEntry_isSome a.fpr a.p_max n _ (by omega) (by omega) hj

/-! ## Linking `precompute_correction` to the build loop -/

theorem precompute_of_build (a : search_arguments) (fs : FS) (t : List ℕ)
    (hts : a.treshold_was_set = false) (hfs : fs (correction_path a) = none)
    (hb : buildCorrection a = some t) :
    precompute_correction a fs = .ok (t, write_correction t a fs) := by
  unfold precompute_correction read_correction
  rw [hts, hfs, hb]
  rfl

theorem precompute_build_inv (a : search_arguments) (fs : FS) (t : List ℕ) (fs' : FS)
    (hts : a.treshold_was_set = false) (hfs : fs (correction_path a) = none)
    (h : precompute_correction a fs = .ok (t, fs')) :
    buildCorrection a = some t ∧ fs' = write_correction t a fs := by
  unfold precompute_correction read_correction at h
  rw [hts, hfs] at h
  replace h : (match buildCorrection a with
      | none => (Except.error run_error.out_of_range : Except run_error (List ℕ × FS))
      | some correction => Except.ok (correction, write_correction correction a fs))
      = Except.ok (t, fs') := h
  cases hb : buildCorrection a with
  | none =>
    rw [hb] at h
    exact absurd h (by simp)
  | some u =>
    rw [hb] at h
    replace h : (Except.ok (u, write_correction u a fs) : Except run_error (List ℕ × FS))
        = Except.ok (t, fs') := h
    simp only [Except.ok.injEq, Prod.mk.injEq] at h
    obtain ⟨h1, h2⟩ := h
    subst h1
    exact ⟨rfl, h2.symm⟩

/-! ## Round-tripping the cache artifact -/

theorem toLE_length : ∀ w n, (toLE w n).length = w := by
  intro w
  induction w with
  | zero => intro n; rfl
  | succ w ih => intro n; simp [toLE, ih]

theorem fromLE_toLE : ∀ w n, fromLE (toLE w n) = n % 256 ^ w := by
  intro w
  induction w with
  | zero => intro n; simp [toLE, fromLE, Nat.mod_one]
  | succ w ih =>
    intro n
    rw [toLE]
    unfold fromLE
    simp only [List.foldr_cons]
    rw [show List.foldr (fun b acc => b + 256 * acc) 0 (toLE w (n / 256))
          = fromLE (toLE w (n / 256)) from rfl, ih]
    rw [Nat.pow_succ, Nat.mul_comm (256 ^ w) 256, Nat.mod_mul]

theorem readLE8_encode (n : ℕ) (rest : List ℕ) (hn : n < 2 ^ 64) :
    readLE8 (toLE 8 n ++ rest) = some (n, rest) := by
  unfold readLE8
  have hlen : (toLE 8 n).length = 8 := toLE_length 8 n
  rw [if_pos (by simp [hlen])]
  rw [List.take_left' hlen, List.drop_left' hlen, fromLE_toLE]
  have h8 : (256 : ℕ) ^ 8 = 2 ^ 64 := by norm_num
  rw [h8, Nat.mod_eq_of_lt hn]

theorem readElems_encode : ∀ v : List ℕ, (∀ x ∈ v, x < 2 ^ 64) →
    ∀ rest, readElems v.length ((v.map (toLE 8)).flatten ++ rest) = some v := by
  intro v
  induction v with
  | nil => intro _ rest; rfl
  | cons x v ih =>
    intro hv rest
    simp only [List.map_cons, List.flatten_cons, List.length_cons, List.append_assoc]
    rw [readElems, readLE8_encode x _ (hv x (by simp))]
    rw [Option.some_bind]
    rw [ih (fun y hy => hv y (by simp [hy])) rest]
    rfl

theorem decodeVec_encodeVec (v : List ℕ) (hv : ∀ x ∈ v, x < 2 ^ 64)
    (hlen : v.length < 2 ^ 64) : decodeVec (encodeVec v) = some v := by
  unfold decodeVec encodeVec
  rw [readLE8_encode _ _ hlen, Option.some_bind]
  have := readElems_encode v hv []
  rw [List.append_nil] at this
  exact this

theorem write_correction_nocache (vec : List ℕ) (a : search_arguments) (fs : FS)
    (h : a.cache_thresholds = false) : write_correction vec a fs = fs := by
  unfold write_correction
  rw [h]
  rfl

theorem write_correction_cache (vec : List ℕ) (a : search_arguments) (fs : FS)
    (h : a.cache_thresholds = true) :
    write_correction vec a fs (correction_path a) = some (encodeVec vec) := by
  unfold write_correction
  rw [h]
  simp

theorem read_after_write (a : search_arguments) (fs : FS) (vec : List ℕ)
    (hc : a.cache_thresholds = true) (hv : ∀ x ∈ vec, x < 2 ^ 64)
    (hlen : vec.length < 2 ^ 64) :
    read_correction a (write_correction vec a fs) = .ok (some vec) := by
  have hfs : write_correction vec a fs (correction_path a) = some (encodeVec vec) :=
    write_correction_cache vec a fs hc
  unfold read_correction
  rw [hfs]
  show (match decodeVec (encodeVec vec) with
    | none => (Except.error run_error.decode_failure : Except run_error (Option (List ℕ)))
    | some v => Except.ok (some v)) = Except.ok (some vec)
  rw [decodeVec_encodeVec vec hv hlen]

/-- `read_correction` on a filesystem holding a well-formed artifact. -/
theorem read_correction_artifact (a : search_arguments) (fs : FS) (t : List ℕ)
    (hfs : fs (correction_path a) = some (encodeVec t))
    (hv : ∀ x ∈ t, x < 2 ^ 64) (hlen : t.length < 2 ^ 64) :
    read_correction a fs = .ok (some t) := by
  unfold read_correction
  rw [hfs]
  show (match decodeVec (encodeVec t) with
    | none => (Except.error run_error.decode_failure : Except run_error (Option (List ℕ)))
    | some v => Except.ok (some v)) = Except.ok (some t)
  rw [decodeVec_encodeVec t hv hlen]

/-! ## Example configurations used by the concrete instantiations -/

/-- A small healthy configuration: `pattern 7`, `window 6`, 4-mer,
`p_max = 1/2`, `fpr = 1/10`. -/
def args_a : search_arguments :=
  { pattern_size := 7, window_size := 6, shape_ulong := 15, shape_size := 4,
    p_max := ⟨1, 2⟩, fpr := ⟨1, 10⟩, treshold_was_set := false,
    cache_thresholds := true, index_parent := "dir".toList }

/-- A configuration whose inner scan escapes its Pascal row: `pattern 5`,
`window 5`, 4-mer, `p_max = 1/2`, `fpr = 9/10` (one minimizer, and
`P(1,1) = 9/10 ≥ 1/2`). -/
def args_b : search_arguments :=
  { pattern_size := 5, window_size := 5, shape_ulong := 15, shape_size := 4,
    p_max := ⟨1, 2⟩, fpr := ⟨9, 10⟩, treshold_was_set := false,
    cache_thresholds := true, index_parent := "dir".toList }

/-- A degenerate configuration with `window_size = kmer_size = 4`. -/
def args_c : search_arguments :=
  { pattern_size := 5, window_size := 4, shape_ulong := 15, shape_size := 4,
    p_max := ⟨1, 2⟩, fpr := ⟨1, 10⟩, treshold_was_set := false,
    cache_thresholds := true, index_parent := "dir".toList }

/-- The empty filesystem. -/
def fs_empty : FS := fun _ => none

/-- A filesystem holding a truncated (three-byte) artifact for `args_a`. -/
def fs_corrupt : FS := fun p => if p = correction_path args_a then some [1, 0, 0] else none

/-! ## The claims -/

/-- C1: for a valid parameter tuple (`threshold_override_set` false,
`window_size > kmer_size`, non-empty minimizer-count range), every entry
`c(n)` of the table produced by `precompute_correction` (on a cache miss)
satisfies `P(n, c(n)+1) < p_max` and, when `c(n) > 0`, `P(n, c(n)) ≥ p_max`,
where `P` is the binomial false-positive model over the exact values of the
rates. -/
theorem c1_correction_entry_bounds (a : search_arguments) (fs fs' : FS) (t : List ℕ)
    (hts : a.treshold_was_set = false)
    (hwk : kmer_size a < a.window_size)
    (hrange : minimal_number_of_minimizers a ≤ maximal_number_of_minimizers a)
    (hfd : 0 < a.fpr.den) (hpd : 0 < a.p_max.den)
    (hfs : fs (correction_path a) = none)
    (hrun : precompute_correction a fs = .ok (t, fs'))
    (n c : ℕ) (hn1 : minimal_number_of_minimizers a ≤ n)
    (hn2 : n ≤ maximal_number_of_minimizers a)
    (hc : t.get? (n - minimal_number_of_minimizers a) = some c) :
    binomPMF n (c + 1) (Frac.toRat a.fpr) < Frac.toRat a.p_max
      ∧ (0 < c → Frac.toRat a.p_max ≤ binomPMF n c (Frac.toRat a.fpr)) := by
  obtain ⟨hb, -⟩ := precompute_build_inv a fs t fs' hts hfs hrun
  have hget := buildCorrection_get? a t hb n hn1 hn2
  rw [hc] at hget
  have hbounds := correctionEntry_bounds a.fpr a.p_max n c hfd hpd hget.symm
  exact ⟨hbounds.2.1, hbounds.2.2⟩

/-- Witness for C1 at `args_a`, count `n = 2`, entry `c = 0`. -/
theorem c1_witness :
    binomPMF 2 (0 + 1) (Frac.toRat args_a.fpr) < Frac.toRat args_a.p_max
      ∧ (0 < 0 → Frac.toRat args_a.p_max ≤ binomPMF 2 0 (Frac.toRat args_a.fpr)) :=
  c1_correction_entry_bounds args_a fs_empty (write_correction [0, 0] args_a fs_empty)
    [0, 0] rfl (by decide) (by decide) (by decide) (by decide) rfl rfl
    2 0 (by decide) (by decide) rfl

/-- C2 is refuted: `args_b` is a parameter tuple with `fpr`, `p_max ∈ (0,1)`
(and `kmer < window ≤ pattern`), yet the inner scan reads
`binom_coeff[2]` on the Pascal row of `n = 1` (length 2) — out of bounds —
so the build aborts instead of staying in bounds. -/
theorem c2_counterexample :
    (args_b.treshold_was_set = false
      ∧ kmer_size args_b < args_b.window_size
      ∧ args_b.window_size ≤ args_b.pattern_size
      ∧ 0 < args_b.fpr.num ∧ args_b.fpr.num < (args_b.fpr.den : ℤ)
      ∧ 0 < args_b.p_max.num ∧ args_b.p_max.num < (args_b.p_max.den : ℤ))
      ∧ binom (pascal_row 1) args_b.fpr 1 2 = none
      ∧ buildCorrection args_b = none
      ∧ precompute_correction args_b fs_empty = .error .out_of_range := by
  exact ⟨by decide, rfl, rfl, rfl⟩

/-- C2 amended: the subscript `binom_coeff[number_of_fp]` stays in bounds —
equivalently the build succeeds — provided every count `n` in the table's
domain has some `1 ≤ j ≤ n` whose modelled probability is below `p_max`
(decidable guard `scanGuard`); without that proviso the scan walks past the
row, as the counterexample shows. -/
theorem c2_scan_in_bounds (a : search_arguments) (hg : scanGuard a = true) :
    ∃ t, buildCorrection a = some t :=
  Option.isSome_iff_exists.mp (buildCorrection_isSome_of_guard a hg)

/-- Witness for the amended C2 at `args_a`. -/
theorem c2_witness : scanGuard args_a = true ∧ ∃ t, buildCorrection args_a = some t :=
  ⟨by decide, c2_scan_in_bounds args_a (by decide)⟩

/-- C4 is refuted: with a truncated three-byte artifact on disk, the load
step does not report a cache miss and no recomputation happens — the decode
exception propagates out of `precompute_correction` (aborting the search). -/
theorem c4_counterexample :
    fs_corrupt (correction_path args_a) = some [1, 0, 0]
      ∧ decodeVec [1, 0, 0] = none
      ∧ precompute_correction args_a fs_corrupt = .error .decode_failure := by
  exact ⟨by decide, rfl, rfl⟩

/-- C4 amended: only an absent artifact is a cache miss.  When an artifact is
present, `precompute_correction` returns whatever it decodes to, without any
validation: a malformed artifact propagates the decode exception (no
recomputation, no miss), and a decodable artifact — even one of the wrong
length for the parameters — is returned as the table. -/
theorem c4_load_behaviour (a : search_arguments) (fs : FS) (bytes : List ℕ)
    (hts : a.treshold_was_set = false)
    (hfs : fs (correction_path a) = some bytes) :
    precompute_correction a fs = (match decodeVec bytes with
      | none => .error .decode_failure
      | some v => .ok (v, fs)) := by
  have hread : read_correction a fs = (match decodeVec bytes with
      | none => .error .decode_failure
      | some v => .ok (some v)) := by
    unfold read_correction
    rw [hfs]
  unfold precompute_correction
  rw [hts, hread]
  cases hd : decodeVec bytes with
  | none => rfl
  | some v => rfl

/-- Witness for the amended C4 at the truncated artifact. -/
theorem c4_witness :
    precompute_correction args_a fs_corrupt = (match decodeVec [1, 0, 0] with
      | none => .error .decode_failure
      | some v => .ok (v, fs_corrupt)) :=
  c4_load_behaviour args_a fs_corrupt [1, 0, 0] rfl (by decide)

/-- C5: for a valid parameter tuple, the freshly built table has length
`maximal − minimal + 1` with `minimal = ⌊(pattern − kmer + 1) / (window − kmer + 1)⌋`
and `maximal = pattern − window + 1`, and the entry at index `n − minimal` is
the correction computed for minimizer count `n`. -/
theorem c5_table_shape (a : search_arguments) (fs fs' : FS) (t : List ℕ)
    (hts : a.treshold_was_set = false)
    (hk : 1 ≤ kmer_size a) (hkw : kmer_size a < a.window_size)
    (hwp : a.window_size ≤ a.pattern_size) (hp : a.pattern_size < 2 ^ 64)
    (hfs : fs (correction_path a) = none)
    (hrun : precompute_correction a fs = .ok (t, fs')) :
    minimal_number_of_minimizers a
        = (a.pattern_size - kmer_size a + 1) / (a.window_size - kmer_size a + 1)
      ∧ maximal_number_of_minimizers a = a.pattern_size - a.window_size + 1
      ∧ t.length = maximal_number_of_minimizers a - minimal_number_of_minimizers a + 1
      ∧ ∀ n, minimal_number_of_minimizers a ≤ n → n ≤ maximal_number_of_minimizers a →
          t.get? (n - minimal_number_of_minimizers a) = correctionEntry a.fpr a.p_max n := by
  obtain ⟨hb, -⟩ := precompute_build_inv a fs t fs' hts hfs hrun
  have hlen := buildCorrection_length a t hb
  have hminmax := minimal_le_maximal a hk hkw hwp hp
  refine ⟨?_, maximal_eq a hwp hp (by omega), by omega,
    fun n h1 h2 => buildCorrection_get? a t hb n h1 h2⟩
  unfold minimal_number_of_minimizers
  rw [kmers_per_window_eq a hk (by omega) (by omega), kmers_per_pattern_eq a hk (by omega) hp]

/-- Witness for C5 at `args_a` (table `[0, 0]`, domain `{1, 2}`). -/
theorem c5_witness :
    minimal_number_of_minimizers args_a
        = (args_a.pattern_size - kmer_size args_a + 1)
            / (args_a.window_size - kmer_size args_a + 1)
      ∧ maximal_number_of_minimizers args_a
          = args_a.pattern_size - args_a.window_size + 1
      ∧ ([0, 0] : List ℕ).length
          = maximal_number_of_minimizers args_a - minimal_number_of_minimizers args_a + 1
      ∧ ∀ n, minimal_number_of_minimizers args_a ≤ n →
          n ≤ maximal_number_of_minimizers args_a →
          ([0, 0] : List ℕ).get? (n - minimal_number_of_minimizers args_a)
            = correctionEntry args_a.fpr args_a.p_max n :=
  c5_table_shape args_a fs_empty (write_correction [0, 0] args_a fs_empty) [0, 0]
    rfl (by decide) (by decide) (by decide) (by decide) rfl rfl

/-- C6 is refuted: at `args_c` (`window_size = kmer_size = 4`) the release
computation reports no configuration error — it returns a non-empty table
computed from the degenerate model. -/
theorem c6_counterexample :
    args_c.window_size = kmer_size args_c
      ∧ precompute_correction args_c fs_empty
          = .ok ([0], write_correction [0] args_c fs_empty)
      ∧ ([0] : List ℕ) ≠ [] := by
  exact ⟨rfl, rfl, by decide⟩

/-- C6 amended: `window_size = kmer_size` is guarded only by a debug
`assert`; in release the computation proceeds and (when its scan terminates)
returns a one-entry, hence non-empty, table for the single count
`pattern − window + 1` — no `ConfigurationError` is reported, and the
empty-range case cannot arise. -/
theorem c6_degenerate_window (a : search_arguments) (fs : FS) (t : List ℕ)
    (hwk : a.window_size = kmer_size a)
    (hk : 1 ≤ kmer_size a) (hwp : a.window_size ≤ a.pattern_size)
    (hp : a.pattern_size < 2 ^ 64)
    (hts : a.treshold_was_set = false) (hfs : fs (correction_path a) = none)
    (hb : buildCorrection a = some t) :
    precompute_correction a fs = .ok (t, write_correction t a fs)
      ∧ t.length = 1 ∧ t ≠ [] := by
  have h1 := kmers_per_window_eq a hk (by omega) (by omega)
  have h2 := kmers_per_pattern_eq a hk (by omega) hp
  have h3 := maximal_eq a hwp hp (by omega)
  have hlen := buildCorrection_length a t hb
  unfold minimal_number_of_minimizers at hlen
  rw [h1, h2, h3] at hlen
  have hw1 : a.window_size - kmer_size a + 1 = 1 := by omega
  rw [hw1, Nat.div_one] at hlen
  have hlen1 : t.length = 1 := by omega
  exact ⟨precompute_of_build a fs t hts hfs hb, hlen1,
    List.ne_nil_of_length_pos (by omega)⟩

/-- Witness for the amended C6 at `args_c`. -/
theorem c6_witness :
    precompute_correction args_c fs_empty = .ok ([0], write_correction [0] args_c fs_empty)
      ∧ ([0] : List ℕ).length = 1 ∧ ([0] : List ℕ) ≠ [] :=
  c6_degenerate_window args_c fs_empty [0] rfl (by decide) (by decide) (by decide)
    rfl rfl rfl

/-- C7: when the threshold override is set, `precompute_correction` returns
the empty table and the untouched filesystem, for every filesystem — so no
cache artifact is consulted (the result does not depend on `fs`), the table
is not built, and the store step never runs. -/
theorem c7_threshold_short_circuit (a : search_arguments) (fs : FS)
    (h : a.treshold_was_set = true) :
    precompute_correction a fs = .ok ([], fs) := by
  unfold precompute_correction
  rw [h]
  rfl

/-- Witness for C7: threshold set, a populated cache artifact is ignored. -/
theorem c7_witness :
    precompute_correction
      { args_a with treshold_was_set := true }
      (fun _ => some (encodeVec [9, 9]))
      = .ok ([], fun _ => some (encodeVec [9, 9])) :=
  c7_threshold_short_circuit { args_a with treshold_was_set := true }
    (fun _ => some (encodeVec [9, 9])) rfl

/-- C8: cache round-trip — storing any 64-bit table with caching enabled and
re-loading it with the same parameters returns exactly that table. -/
theorem c8_cache_roundtrip (a : search_arguments) (fs : FS) (t : List ℕ)
    (hc : a.cache_thresholds = true) (hv : ∀ x ∈ t, x < 2 ^ 64)
    (hlen : t.length < 2 ^ 64) :
    read_correction a (write_correction t a fs) = .ok (some t) :=
  read_after_write a fs t hc hv hlen

/-- Witness for C8 at a two-element table. -/
theorem c8_witness :
    read_correction args_a (write_correction [3, 18446744073709551615] args_a fs_empty)
      = .ok (some [3, 18446744073709551615]) :=
  c8_cache_roundtrip args_a fs_empty [3, 18446744073709551615] rfl (by decide) (by decide)

/-- C9: the build is deterministic — two runs on filesystems with no cache
hit (artifact absent in both) produce the same table. -/
theorem c9_deterministic_build (a : search_arguments) (fs1 fs2 : FS)
    (h1 : fs1 (correction_path a) = none) (h2 : fs2 (correction_path a) = none) :
    Except.map Prod.fst (precompute_correction a fs1)
      = Except.map Prod.fst (precompute_correction a fs2) := by
  unfold precompute_correction read_correction
  rw [h1, h2]
  by_cases hts : a.treshold_was_set = true
  · rw [hts]
    rfl
  · have hts' : a.treshold_was_set = false := by
      revert hts; cases a.treshold_was_set <;> simp
    rw [hts']
    cases hb : buildCorrection a <;> rfl

/-- Witness for C9: the artifact is absent in the empty filesystem and in one
holding only an unrelated file. -/
theorem c9_witness :
    Except.map Prod.fst (precompute_correction args_a fs_empty)
      = Except.map Prod.fst (precompute_correction args_a
          (fun p => if p = (args_a.index_parent, "other".toList) then some [1, 2] else none)) :=
  c9_deterministic_build args_a fs_empty
    (fun p => if p = (args_a.index_parent, "other".toList) then some [1, 2] else none)
    rfl (by decide)

/-- C10: the caching flag is asymmetric — with `cache_thresholds = false` the
store is a no-op (the filesystem is returned unchanged), yet the load runs
unconditionally, so a pre-existing artifact for the same parameters is still
returned even with caching disabled. -/
theorem c10_cache_flag_asymmetry (a : search_arguments) (fs : FS) (t vec : List ℕ)
    (hcache : a.cache_thresholds = false) (hts : a.treshold_was_set = false)
    (hfs : fs (correction_path a) = some (encodeVec t))
    (hv : ∀ x ∈ t, x < 2 ^ 64) (hlen : t.length < 2 ^ 64) :
    write_correction vec a fs = fs
      ∧ precompute_correction a fs = .ok (t, fs) := by
  refine ⟨write_correction_nocache vec a fs hcache, ?_⟩
  have hread := read_correction_artifact a fs t hfs hv hlen
  unfold precompute_correction
  rw [hts, hread]
  rfl

/-- Witness for C10: caching disabled, a stale artifact `[7]` is loaded
anyway, and a store of `[1, 2]` leaves the filesystem untouched. -/
theorem c10_witness :
    write_correction [1, 2] { args_a with cache_thresholds := false }
        (fun p => if p = correction_path { args_a with cache_thresholds := false }
          then some (encodeVec [7]) else none)
      = (fun p => if p = correction_path { args_a with cache_thresholds := false }
          then some (encodeVec [7]) else none)
      ∧ precompute_correction { args_a with cache_thresholds := false }
          (fun p => if p = correction_path { args_a with cache_thresholds := false }
            then some (encodeVec [7]) else none)
        = .ok ([7], fun p => if p = correction_path { args_a with cache_thresholds := false }
            then some (encodeVec [7]) else none) :=
  c10_cache_flag_asymmetry { args_a with cache_thresholds := false }
    (fun p => if p = correction_path { args_a with cache_thresholds := false }
      then some (encodeVec [7]) else none)
    [7] [1, 2] rfl rfl (by decide) (by decide) (by decide)

/-! ## Exactly-rendered rates

The default format rounds to six significant digits, so the key derivation
cannot distinguish doubles that agree on those digits.  `ExactSix` carves out
the values the format renders exactly (and in fixed notation): on this class
the rendering, and hence the derived key, is injective in the value. -/

/-- A rate in `(0, 1)`, at least `10 ^ (-4)` (fixed notation), whose value is
an integer multiple of `10 ^ (-(e+5))` — i.e. at most six significant
digits. -/
def ExactSix (f : Frac) : Prop :=
  0 < f.num ∧ f.num < (f.den : ℤ) ∧ eOf f.num.toNat f.den ≤ 4
    ∧ f.den ∣ f.num.toNat * 10 ^ (eOf f.num.toNat f.den + 5)

instance (f : Frac) : Decidable (ExactSix f) := by
  unfold ExactSix
  infer_instance

theorem expAux_spec (d : ℕ) (hd : 0 < d) :
    ∀ fuel n, 0 < n → d ≤ n * 10 ^ fuel →
      d ≤ n * 10 ^ expAux d fuel n ∧ ∀ j, j < expAux d fuel n → n * 10 ^ j < d := by
  intro fuel
  induction fuel with
  | zero =>
    intro n hn hfuel
    rw [expAux]
    exact ⟨by simpa using hfuel, by omega⟩
  | succ fuel ih =>
    intro n hn hfuel
    rw [expAux]
    by_cases hdn : d ≤ n
    · rw [if_pos hdn]
      exact ⟨by simpa using hdn, by omega⟩
    · rw [if_neg hdn]
      have hfuel' : d ≤ n * 10 * 10 ^ fuel := by
        calc d ≤ n * 10 ^ (fuel + 1) := hfuel
        _ = n * 10 * 10 ^ fuel := by ring
      obtain ⟨h1, h2⟩ := ih (n * 10) (by omega) hfuel'
      constructor
      · calc d ≤ n * 10 * 10 ^ expAux d fuel (n * 10) := h1
        _ = n * 10 ^ (expAux d fuel (n * 10) + 1) := by ring
      · intro j hj
        cases j with
        | zero => simpa using (by omega : n < d)
        | succ j =>
          have hlt := h2 j (by omega)
          calc n * 10 ^ (j + 1) = n * 10 * 10 ^ j := by ring
          _ < d := hlt

theorem eOf_spec (n d : ℕ) (hn : 0 < n) (hd : 0 < d) :
    d ≤ n * 10 ^ eOf n d ∧ ∀ j, j < eOf n d → n * 10 ^ j < d := by
  apply expAux_spec d hd d n hn
  have h1 : d < 10 ^ d := Nat.lt_pow_self (by norm_num) d
  have h2 : 10 ^ d ≤ n * 10 ^ d := Nat.le_mul_of_pos_left _ hn
  omega

theorem eOf_pos (n d : ℕ) (hn : 0 < n) (hnd : n < d) : 1 ≤ eOf n d := by
  obtain ⟨h1, -⟩ := eOf_spec n d hn (by omega)
  by_contra h
  have he : eOf n d = 0 := by omega
  rw [he] at h1
  simp at h1
  omega

theorem roundSig_ge (n d e : ℕ) (hd : 0 < d) (hlow : d ≤ n * 10 ^ e) :
    10 ^ 5 ≤ roundSig n d e := by
  unfold roundSig
  rw [Nat.le_div_iff_mul_le (by omega)]
  have e1 : 2 * n * 10 ^ (e + 5) = 2 * (n * 10 ^ e) * 10 ^ 5 := by ring
  rw [e1]
  have h2 : d * 10 ^ 5 ≤ (n * 10 ^ e) * 10 ^ 5 := Nat.mul_le_mul_right _ hlow
  omega

/-- On the exact class the rounding is exact: `m * d = n * 10 ^ (e + 5)`. -/
theorem roundSig_exact (n d e : ℕ) (hd : 0 < d) (hdvd : d ∣ n * 10 ^ (e + 5)) :
    roundSig n d e * d = n * 10 ^ (e + 5) := by
  obtain ⟨c, hc⟩ := hdvd
  unfold roundSig
  have e1 : 2 * n * 10 ^ (e + 5) + d = 2 * d * c + d := by
    have : 2 * n * 10 ^ (e + 5) = 2 * (n * 10 ^ (e + 5)) := by ring
    rw [this, hc]
    ring
  rw [e1, Nat.mul_add_div (by omega)]
  have hdd : d / (2 * d) = 0 := Nat.div_eq_of_lt (by omega)
  rw [hdd]
  rw [hc]
  ring

theorem roundSig_lt (n d e : ℕ) (hd : 0 < d) (hdvd : d ∣ n * 10 ^ (e + 5))
    (hhigh : n * 10 ^ e < 10 * d) : roundSig n d e < 10 ^ 6 := by
  have hexact := roundSig_exact n d e hd hdvd
  have h1 : n * 10 ^ (e + 5) < 10 ^ 6 * d := by
    have e1 : n * 10 ^ (e + 5) = (n * 10 ^ e) * 10 ^ 5 := by ring
    rw [e1]
    have h2 : (n * 10 ^ e) * 10 ^ 5 < (10 * d) * 10 ^ 5 :=
      (Nat.mul_lt_mul_right (by norm_num : (0:ℕ) < 10 ^ 5)).mpr hhigh
    have e2 : (10 * d) * 10 ^ 5 = 10 ^ 6 * d := by ring
    omega
  have h3 : roundSig n d e * d < 10 ^ 6 * d := by omega
  exact Nat.lt_of_mul_lt_mul_right h3

theorem splitTens_fst_snd (fuel m : ℕ) (hc : m ≠ 0 ∧ m % 10 = 0) :
    splitTens (fuel + 1) m
      = ((splitTens fuel (m / 10)).1 + 1, (splitTens fuel (m / 10)).2) := by
  rw [splitTens, if_pos hc]

theorem splitTens_stop (fuel m : ℕ) (hc : ¬ (m ≠ 0 ∧ m % 10 = 0)) :
    splitTens (fuel + 1) m = (0, m) := by
  rw [splitTens, if_neg hc]

theorem splitTens_spec : ∀ fuel m, m ≤ fuel →
    (splitTens fuel m).2 * 10 ^ (splitTens fuel m).1 = m
      ∧ (0 < m → ¬ (10 ∣ (splitTens fuel m).2))
      ∧ (0 < m → 0 < (splitTens fuel m).2) := by
  intro fuel
  induction fuel with
  | zero =>
    intro m hm
    interval_cases m
    simp [splitTens]
  | succ fuel ih =>
    intro m hm
    by_cases hc : m ≠ 0 ∧ m % 10 = 0
    · rw [splitTens_fst_snd fuel m hc]
      have hm10 : 10 ≤ m := by omega
      have hdiv : m / 10 ≤ fuel := by omega
      obtain ⟨ha, hb, hcpos⟩ := ih (m / 10) hdiv
      refine ⟨?_, fun _ => hb (by omega), fun _ => hcpos (by omega)⟩
      show (splitTens fuel (m / 10)).2 * 10 ^ ((splitTens fuel (m / 10)).1 + 1) = m
      rw [pow_succ, ← Nat.mul_assoc, ha]
      omega
    · rw [splitTens_stop fuel m hc]
      refine ⟨by simp, ?_, fun h => h⟩
      intro hmpos hdvd
      apply hc
      refine ⟨by omega, ?_⟩
      obtain ⟨c, rfl⟩ := hdvd
      simp [Nat.mul_mod_right]

/-- All the data of a rate in the exactly-rendered class: its decimal
exponent, its exact significand, and the fixed-notation rendering. -/
theorem exactSix_unpack (f : Frac) (h : ExactSix f) :
    0 < f.num.toNat ∧ f.num.toNat < f.den ∧ 0 < f.den
      ∧ 1 ≤ eOf f.num.toNat f.den
      ∧ 10 ^ 5 ≤ roundSig f.num.toNat f.den (eOf f.num.toNat f.den)
      ∧ roundSig f.num.toNat f.den (eOf f.num.toNat f.den) < 10 ^ 6
      ∧ roundSig f.num.toNat f.den (eOf f.num.toNat f.den) * f.den
          = f.num.toNat * 10 ^ (eOf f.num.toNat f.den + 5)
      ∧ renderFrac f
          = fixedChars (eOf f.num.toNat f.den)
              (roundSig f.num.toNat f.den (eOf f.num.toNat f.den)) := by
  obtain ⟨hpos, hlt, he4, hdvd⟩ := h
  have hn : 0 < f.num.toNat := by omega
  have hd : 0 < f.den := by omega
  have hnd : f.num.toNat < f.den := by omega
  obtain ⟨hlow, hhigh⟩ := eOf_spec f.num.toNat f.den hn hd
  have he1 : 1 ≤ eOf f.num.toNat f.den := eOf_pos _ _ hn hnd
  have hhigh10 : f.num.toNat * 10 ^ eOf f.num.toNat f.den < 10 * f.den := by
    have := hhigh (eOf f.num.toNat f.den - 1) (by omega)
    have e1 : f.num.toNat * 10 ^ eOf f.num.toNat f.den
        = (f.num.toNat * 10 ^ (eOf f.num.toNat f.den - 1)) * 10 := by
      rw [Nat.mul_assoc, ← pow_succ]
      congr 2
      omega
    omega
  have hm5 : 10 ^ 5 ≤ roundSig f.num.toNat f.den (eOf f.num.toNat f.den) :=
    roundSig_ge _ _ _ hd hlow
  have hm6 : roundSig f.num.toNat f.den (eOf f.num.toNat f.den) < 10 ^ 6 :=
    roundSig_lt _ _ _ hd hdvd hhigh10
  have hexact := roundSig_exact f.num.toNat f.den (eOf f.num.toNat f.den) hd hdvd
  refine ⟨hn, hnd, hd, he1, hm5, hm6, hexact, ?_⟩
  unfold renderFrac
  rw [if_pos ⟨hpos, hlt⟩, if_pos hm6, if_pos he4]

/-- Cancellation of matching powers of ten against the six-digit window. -/
theorem pow_ten_cancel (u t t' m m' : ℕ) (h1 : u * 10 ^ t = m) (h2 : u * 10 ^ t' = m')
    (hm5 : 10 ^ 5 ≤ m) (hm6 : m < 10 ^ 6) (hm5' : 10 ^ 5 ≤ m') (hm6' : m' < 10 ^ 6) :
    m = m' := by
  rcases Nat.lt_trichotomy t t' with hlt | heq | hgt
  · exfalso
    have e1 : t + (t' - t) = t' := by omega
    have hstep : m * 10 ^ (t' - t) = m' := by
      calc m * 10 ^ (t' - t) = u * 10 ^ t * 10 ^ (t' - t) := by rw [h1]
      _ = u * 10 ^ (t + (t' - t)) := by rw [Nat.mul_assoc, ← pow_add]
      _ = u * 10 ^ t' := by rw [e1]
      _ = m' := h2
    have h10 : 10 ≤ 10 ^ (t' - t) := by
      calc (10 : ℕ) = 10 ^ 1 := by norm_num
      _ ≤ 10 ^ (t' - t) := Nat.pow_le_pow_right (by norm_num) (by omega)
    have hmul : m * 10 ≤ m * 10 ^ (t' - t) := Nat.mul_le_mul_left m h10
    omega
  · rw [heq] at h1
    omega
  · exfalso
    have e1 : t' + (t - t') = t := by omega
    have hstep : m' * 10 ^ (t - t') = m := by
      calc m' * 10 ^ (t - t') = u * 10 ^ t' * 10 ^ (t - t') := by rw [h2]
      _ = u * 10 ^ (t' + (t - t')) := by rw [Nat.mul_assoc, ← pow_add]
      _ = u * 10 ^ t := by rw [e1]
      _ = m := h1
    have h10 : 10 ≤ 10 ^ (t - t') := by
      calc (10 : ℕ) = 10 ^ 1 := by norm_num
      _ ≤ 10 ^ (t - t') := Nat.pow_le_pow_right (by norm_num) (by omega)
    have hmul : m' * 10 ≤ m' * 10 ^ (t - t') := Nat.mul_le_mul_left m' h10
    omega

theorem replicate_zero_block_inj : ∀ (i i' : ℕ) (l l' : List Char),
    l.head? ≠ some '0' → l'.head? ≠ some '0' →
    List.replicate i '0' ++ l = List.replicate i' '0' ++ l' → i = i' ∧ l = l' := by
  intro i
  induction i with
  | zero =>
    intro i' l l' hl hl' h
    cases i' with
    | zero => exact ⟨rfl, by simpa using h⟩
    | succ i' =>
      exfalso
      apply hl
      rw [List.replicate_succ] at h
      simp only [List.replicate_zero, List.nil_append, List.cons_append] at h
      rw [h]
      rfl
  | succ i ih =>
    intro i' l l' hl hl' h
    cases i' with
    | zero =>
      exfalso
      apply hl'
      rw [List.replicate_succ] at h
      simp only [List.replicate_zero, List.nil_append, List.cons_append] at h
      rw [← h]
      rfl
    | succ i' =>
      rw [List.replicate_succ, List.replicate_succ] at h
      simp only [List.cons_append, List.cons.injEq] at h
      obtain ⟨hi, hll⟩ := ih i' l l' hl hl' h.2
      exact ⟨by omega, hll⟩

theorem fixedTail_no_sep (e m : ℕ) : ∀ c ∈ fixedTail e m, c ≠ '_' ∧ c ≠ '.' := by
  intro c hc
  unfold fixedTail at hc
  rw [List.mem_append] at hc
  rcases hc with hc | hc
  · rw [List.mem_replicate] at hc
    rw [hc.2]
    exact ⟨by decide, by decide⟩
  · exact digitString_sep_free 10 (by norm_num) (by norm_num) _ c hc

theorem fixedTail_inj (e m e' m' : ℕ) (he : 1 ≤ e) (he' : 1 ≤ e')
    (hm5 : 10 ^ 5 ≤ m) (hm6 : m < 10 ^ 6) (hm5' : 10 ^ 5 ≤ m') (hm6' : m' < 10 ^ 6)
    (h : fixedTail e m = fixedTail e' m') : e = e' ∧ m = m' := by
  have hmpos : 0 < m := by omega
  have hmpos' : 0 < m' := by omega
  obtain ⟨hu1, -, hu3⟩ := splitTens_spec m m le_rfl
  obtain ⟨hv1, -, hv3⟩ := splitTens_spec m' m' le_rfl
  have hupos := hu3 hmpos
  have hvpos := hv3 hmpos'
  unfold fixedTail at h
  have hhead : (digitString 10 (splitTens m m).2).head? ≠ some '0' :=
    digitString_head?_ne_zero 10 (by norm_num) (by norm_num) _ hupos
  have hhead' : (digitString 10 (splitTens m' m').2).head? ≠ some '0' :=
    digitString_head?_ne_zero 10 (by norm_num) (by norm_num) _ hvpos
  obtain ⟨hee, hds⟩ := replicate_zero_block_inj (e - 1) (e' - 1) _ _ hhead hhead' h
  have hu_eq : (splitTens m m).2 = (splitTens m' m').2 :=
    digitString_inj 10 (by norm_num) (by norm_num) hds
  refine ⟨by omega, ?_⟩
  exact pow_ten_cancel (splitTens m m).2 (splitTens m m).1 (splitTens m' m').1 m m'
    hu1 (by rw [hu_eq]; exact hv1) hm5 hm6 hm5' hm6'

theorem append_sep_inj (c : Char) : ∀ (a a' r r' : List Char),
    c ∉ a → c ∉ a' → a ++ c :: r = a' ++ c :: r' → a = a' ∧ r = r' := by
  intro a
  induction a with
  | nil =>
    intro a' r r' ha ha' h
    cases a' with
    | nil => exact ⟨rfl, by simpa using h⟩
    | cons x t =>
      exfalso
      simp only [List.nil_append, List.cons_append, List.cons.injEq] at h
      exact ha' (h.1 ▸ List.mem_cons_self x t)
  | cons x t ih =>
    intro a' r r' ha ha' h
    cases a' with
    | nil =>
      exfalso
      simp only [List.nil_append, List.cons_append, List.cons.injEq] at h
      apply ha
      rw [h.1]
      exact List.mem_cons_self c t
    | cons y t' =>
      simp only [List.cons_append, List.cons.injEq] at h
      obtain ⟨hxy, h2⟩ := h
      obtain ⟨ht, hr⟩ := ih t' r r' (fun hmem => ha (List.mem_cons_of_mem _ hmem))
        (fun hmem => ha' (List.mem_cons_of_mem _ hmem)) h2
      exact ⟨by rw [hxy, ht], hr⟩

theorem strip0_hit (B : List Char) : strip0 ('0' :: '.' :: B) = B := by
  rw [strip0, if_pos ⟨rfl, rfl⟩]

theorem strip0_append (A B : List Char) (hA : '.' ∉ A) :
    strip0 (A ++ '0' :: '.' :: B) = A ++ B := by
  induction A with
  | nil =>
    simp only [List.nil_append]
    exact strip0_hit B
  | cons x A ih =>
    cases A with
    | nil =>
      simp only [List.cons_append, List.nil_append]
      rw [strip0, if_neg]
      · rw [strip0_hit]
      · rintro ⟨-, h2⟩
        exact absurd h2 (by decide)
    | cons y A' =>
      have hy : y ≠ '.' := by
        intro he
        exact hA (List.mem_cons_of_mem x (he ▸ List.mem_cons_self y A'))
      have hA' : '.' ∉ y :: A' := fun hm => hA (List.mem_cons_of_mem x hm)
      simp only [List.cons_append]
      rw [strip0, if_neg]
      · have := ih hA'
        simp only [List.cons_append] at this ⊢
        rw [this]
      · rintro ⟨-, h2⟩
        exact hy h2

theorem hexChars_no_sep (n : ℕ) : ∀ c ∈ hexChars n, c ≠ '_' ∧ c ≠ '.' := by
  intro c hc
  unfold hexChars at hc
  by_cases h : n = 0
  · rw [if_pos h] at hc
    simp only [List.mem_singleton] at hc
    rw [hc]
    exact ⟨by decide, by decide⟩
  · rw [if_neg h] at hc
    exact digitString_sep_free 16 (by norm_num) (by norm_num) n c hc

theorem hexChars_inj {m n : ℕ} (h : hexChars m = hexChars n) : m = n := by
  unfold hexChars at h
  by_cases hm : m = 0 <;> by_cases hn : n = 0
  · omega
  · exfalso
    rw [if_pos hm, if_neg hn] at h
    have hz := digitString_head?_ne_zero 16 (by norm_num) (by norm_num) n (by omega)
    rw [← h] at hz
    exact hz rfl
  · exfalso
    rw [if_neg hm, if_pos hn] at h
    have hz := digitString_head?_ne_zero 16 (by norm_num) (by norm_num) m (by omega)
    rw [h] at hz
    exact hz rfl
  · rw [if_neg hm, if_neg hn] at h
    exact digitString_inj 16 (by norm_num) (by norm_num) h

/-- Both `"0."` deletions in the key derivation land exactly on the two
rate fields when everything before each of them is dot-free. -/
theorem strip0_twice (P1 H1 H2 H3 Tp Tf bin : List Char)
    (hP1 : '.' ∉ P1) (hH1 : '.' ∉ H1) (hH2 : '.' ∉ H2) (hH3 : '.' ∉ H3)
    (hTp : '.' ∉ Tp) :
    strip0 (strip0 (P1 ++ H1 ++ '_' :: H2 ++ '_' :: H3
        ++ '_' :: ('0' :: '.' :: Tp) ++ '_' :: ('0' :: '.' :: Tf) ++ bin))
      = P1 ++ H1 ++ '_' :: H2 ++ '_' :: H3 ++ '_' :: Tp ++ '_' :: Tf ++ bin := by
  have hA1 : '.' ∉ (P1 ++ H1 ++ '_' :: H2 ++ '_' :: H3 ++ ['_']) := by
    intro hmem
    simp only [List.mem_append, List.mem_cons, List.mem_singleton] at hmem
    have hne : ¬ ('.' = '_') := by decide
    tauto
  have e1 : P1 ++ H1 ++ '_' :: H2 ++ '_' :: H3
        ++ '_' :: ('0' :: '.' :: Tp) ++ '_' :: ('0' :: '.' :: Tf) ++ bin
      = (P1 ++ H1 ++ '_' :: H2 ++ '_' :: H3 ++ ['_'])
        ++ '0' :: '.' :: (Tp ++ '_' :: ('0' :: '.' :: Tf) ++ bin) := by
    simp
  rw [e1, strip0_append _ _ hA1]
  have hA2 : '.' ∉ ((P1 ++ H1 ++ '_' :: H2 ++ '_' :: H3 ++ ['_']) ++ Tp ++ ['_']) := by
    intro hmem
    simp only [List.mem_append, List.mem_cons, List.mem_singleton] at hmem
    have hne : ¬ ('.' = '_') := by decide
    tauto
  have e2 : (P1 ++ H1 ++ '_' :: H2 ++ '_' :: H3 ++ ['_'])
        ++ (Tp ++ '_' :: ('0' :: '.' :: Tf) ++ bin)
      = ((P1 ++ H1 ++ '_' :: H2 ++ '_' :: H3 ++ ['_']) ++ Tp ++ ['_'])
        ++ '0' :: '.' :: (Tf ++ bin) := by
    simp
  rw [e2, strip0_append _ _ hA2]
  simp

theorem fixedChars_def (e m : ℕ) : fixedChars e m = '0' :: '.' :: fixedTail e m := rfl

/-- On exactly-rendered rates the stored key has one unambiguous field per
parameter: the two `"0."` deletions remove exactly the two rate prefixes. -/
theorem correction_filename_exact (a : search_arguments)
    (hp : ExactSix a.p_max) (hf : ExactSix a.fpr) :
    correction_filename a
      = "correction_".toList
        ++ hexChars a.pattern_size ++ '_' :: hexChars a.window_size
        ++ '_' :: hexChars a.shape_ulong
        ++ '_' :: fixedTail (eOf a.p_max.num.toNat a.p_max.den)
            (roundSig a.p_max.num.toNat a.p_max.den (eOf a.p_max.num.toNat a.p_max.den))
        ++ '_' :: fixedTail (eOf a.fpr.num.toNat a.fpr.den)
            (roundSig a.fpr.num.toNat a.fpr.den (eOf a.fpr.num.toNat a.fpr.den))
        ++ ".bin".toList := by
  obtain ⟨-, -, -, -, -, -, -, hrp⟩ := exactSix_unpack a.p_max hp
  obtain ⟨-, -, -, -, -, -, -, hrf⟩ := exactSix_unpack a.fpr hf
  unfold correction_filename
  rw [hrp, hrf, fixedChars_def, fixedChars_def]
  exact strip0_twice _ _ _ _ _ _ _ (by decide)
    (fun hm => (hexChars_no_sep _ '.' hm).2 rfl)
    (fun hm => (hexChars_no_sep _ '.' hm).2 rfl)
    (fun hm => (hexChars_no_sep _ '.' hm).2 rfl)
    (fun hm => (fixedTail_no_sep _ _ '.' hm).2 rfl)

/-- The value of an exactly-rendered rate is recovered from its exponent and
significand. -/
theorem exactSix_toRat (f : Frac) (h : ExactSix f) :
    Frac.toRat f = (roundSig f.num.toNat f.den (eOf f.num.toNat f.den) : ℚ)
      / 10 ^ (eOf f.num.toNat f.den + 5) := by
  obtain ⟨hn, hnd, hd, -, -, -, hexact, -⟩ := exactSix_unpack f h
  have hnum : (f.num.toNat : ℤ) = f.num := Int.toNat_of_nonneg (by omega)
  have hden : ((f.den : ℚ)) ≠ 0 := by
    have : (0 : ℚ) < (f.den : ℚ) := by exact_mod_cast hd
    exact ne_of_gt this
  rw [Frac.toRat, div_eq_div_iff hden (by positivity)]
  have hcast := congrArg (fun x : ℕ => (x : ℚ)) hexact
  push_cast at hcast
  have hq : ((f.num.toNat : ℚ)) = (f.num : ℚ) := by exact_mod_cast hnum
  rw [← hq]
  exact hcast.symm

/-- Like `args_a`, but with `p_max` the seven-digit value `0.1000001`. -/
def args_p1 : search_arguments :=
  { pattern_size := 7, window_size := 6, shape_ulong := 15, shape_size := 4,
    p_max := ⟨1000001, 10000000⟩, fpr := ⟨1, 10⟩, treshold_was_set := false,
    cache_thresholds := true, index_parent := "dir".toList }

/-- Like `args_a`, but with `p_max` the seven-digit value `0.1000002`. -/
def args_p2 : search_arguments :=
  { pattern_size := 7, window_size := 6, shape_ulong := 15, shape_size := 4,
    p_max := ⟨1000002, 10000000⟩, fpr := ⟨1, 10⟩, treshold_was_set := false,
    cache_thresholds := true, index_parent := "dir".toList }

/-- C3 is refuted: `args_p1` and `args_p2` differ only in `significance_bound`
(`0.1000001` vs `0.1000002`, distinct values), yet both rates print as `0.1`
under the six-significant-digit default format, so the two tuples derive the
same cache key. -/
theorem c3_counterexample :
    correction_filename args_p1 = correction_filename args_p2
      ∧ args_p1.pattern_size = args_p2.pattern_size
      ∧ args_p1.window_size = args_p2.window_size
      ∧ args_p1.shape_ulong = args_p2.shape_ulong
      ∧ args_p1.fpr = args_p2.fpr
      ∧ Frac.toRat args_p1.p_max ≠ Frac.toRat args_p2.p_max := by
  refine ⟨by decide, rfl, rfl, rfl, rfl, ?_⟩
  norm_num [args_p1, args_p2, Frac.toRat]

/-- C3 amended: the key derivation is injective on tuples whose two rates are
rendered exactly by the default format (values in `[10 ^ (-4), 1)` with at
most six significant decimal digits): two such tuples share a key only when
the five keyed parameters agree — in general the key only determines each
rate up to its six-significant-digit rounding, as the counterexample shows. -/
theorem c3_filename_injective (a a' : search_arguments)
    (hp : ExactSix a.p_max) (hf : ExactSix a.fpr)
    (hp' : ExactSix a'.p_max) (hf' : ExactSix a'.fpr)
    (h : correction_filename a = correction_filename a') :
    a.pattern_size = a'.pattern_size ∧ a.window_size = a'.window_size
      ∧ a.shape_ulong = a'.shape_ulong
      ∧ Frac.toRat a.p_max = Frac.toRat a'.p_max
      ∧ Frac.toRat a.fpr = Frac.toRat a'.fpr := by
  obtain ⟨-, -, -, hep, hmp5, hmp6, -, -⟩ := exactSix_unpack a.p_max hp
  obtain ⟨-, -, -, hef, hmf5, hmf6, -, -⟩ := exactSix_unpack a.fpr hf
  obtain ⟨-, -, -, hep', hmp5', hmp6', -, -⟩ := exactSix_unpack a'.p_max hp'
  obtain ⟨-, -, -, hef', hmf5', hmf6', -, -⟩ := exactSix_unpack a'.fpr hf'
  rw [correction_filename_exact a hp hf, correction_filename_exact a' hp' hf'] at h
  simp only [List.append_assoc, List.cons_append] at h
  replace h := List.append_cancel_left h
  have hsep_hex : ∀ n : ℕ, '_' ∉ hexChars n :=
    fun n hm => (hexChars_no_sep n '_' hm).1 rfl
  have hsep_tail : ∀ e m : ℕ, '_' ∉ fixedTail e m :=
    fun e m hm => (fixedTail_no_sep e m '_' hm).1 rfl
  have hdot_tail : ∀ e m : ℕ, '.' ∉ fixedTail e m :=
    fun e m hm => (fixedTail_no_sep e m '.' hm).2 rfl
  obtain ⟨h1, h⟩ := append_sep_inj '_' _ _ _ _ (hsep_hex _) (hsep_hex _) h
  obtain ⟨h2, h⟩ := append_sep_inj '_' _ _ _ _ (hsep_hex _) (hsep_hex _) h
  obtain ⟨h3, h⟩ := append_sep_inj '_' _ _ _ _ (hsep_hex _) (hsep_hex _) h
  obtain ⟨h4, h⟩ := append_sep_inj '_' _ _ _ _ (hsep_tail _ _) (hsep_tail _ _) h
  have hbin : ".bin".toList = '.' :: ['b', 'i', 'n'] := rfl
  rw [hbin] at h
  obtain ⟨h5, -⟩ := append_sep_inj '.' _ _ _ _ (hdot_tail _ _) (hdot_tail _ _) h
  obtain ⟨hpe, hpm⟩ := fixedTail_inj _ _ _ _ hep hep' hmp5 hmp6 hmp5' hmp6' h4
  obtain ⟨hfe, hfm⟩ := fixedTail_inj _ _ _ _ hef hef' hmf5 hmf6 hmf5' hmf6' h5
  refine ⟨hexChars_inj h1, hexChars_inj h2, hexChars_inj h3, ?_, ?_⟩
  · rw [exactSix_toRat a.p_max hp, exactSix_toRat a'.p_max hp', hpm, hpe]
  · rw [exactSix_toRat a.fpr hf, exactSix_toRat a'.fpr hf', hfm, hfe]

/-- Witness for the amended C3: two records sharing the five keyed parameters
(here differing in the unkeyed threshold flag) derive the same key, and the
injectivity theorem recovers the equality of the keyed parameters. -/
theorem c3_witness :
    args_a.pattern_size = ({ args_a with treshold_was_set := true } : search_arguments).pattern_size
      ∧ args_a.window_size = ({ args_a with treshold_was_set := true } : search_arguments).window_size
      ∧ args_a.shape_ulong = ({ args_a with treshold_was_set := true } : search_arguments).shape_ulong
      ∧ Frac.toRat args_a.p_max
          = Frac.toRat ({ args_a with treshold_was_set := true } : search_arguments).p_max
      ∧ Frac.toRat args_a.fpr
          = Frac.toRat ({ args_a with treshold_was_set := true } : search_arguments).fpr :=
  c3_filename_injective args_a { args_a with treshold_was_set := true }
    (by decide) (by decide) (by decide) (by decide) rfl
